import Mathlib

/-!
Verification of `dn_ds_analysis.py`: a shallow embedding of its
country-normalization, header-parsing, sequence-filtering, task-generation
and aggregation logic, together with theorems settling the specification
claims.  External collaborators (the `pycountry` catalog lookup, the
`thefuzz` fuzzy matcher, the continent conversion chain and the external
KaKs oracle) are modelled as function parameters, exactly as the spec
treats them (black boxes); everything else is translated from the source.

Strings are manipulated through their underlying `List Char`, with
ASCII-faithful models of Python's `str.lower`, `str.upper`, `str.strip`,
`str.isalpha`, `str.isdigit`, slicing and single-character `split`.
-/

/-! ## String primitives (ASCII models of the Python string methods) -/

/-- Python `str.split(sep)` for a single-character separator, on char lists:
`""` splits to `[""]`, separators at the ends produce empty segments. -/
def splitChar (sep : Char) : List Char → List (List Char)
  | [] => [[]]
  | c :: cs =>
    if c = sep then [] :: splitChar sep cs
    else
      match splitChar sep cs with
      | [] => [[c]]
      | p :: ps => (c :: p) :: ps

/-- `s.split(sep)[0]`: the prefix of `s` before the first occurrence of `sep`. -/
def headSplit (sep : Char) (s : String) : String :=
  String.mk (s.data.takeWhile (fun c => c ≠ sep))

/-- Python `str.strip()` (whitespace removed from both ends). -/
def pyStrip (s : String) : String :=
  String.mk (((s.data.dropWhile Char.isWhitespace).reverse.dropWhile
    Char.isWhitespace).reverse)

/-- Python `str.lower()` (ASCII). -/
def lowerStr (s : String) : String := String.mk (s.data.map Char.toLower)

/-- Python `str.upper()` (ASCII). -/
def upperStr (s : String) : String := String.mk (s.data.map Char.toUpper)

/-- Python `c in s` for a single character. -/
def containsChar (c : Char) (s : String) : Bool := s.data.any (fun d => d = c)

/-- Python `str.isalpha()` (ASCII letters; nonempty). -/
def pyIsAlpha (s : String) : Bool :=
  !s.data.isEmpty && s.data.all (fun c => ('A' ≤ c ∧ c ≤ 'Z') ∨ ('a' ≤ c ∧ c ≤ 'z'))

/-- Python `str.isdigit()` (ASCII digits; nonempty). -/
def pyIsDigit (s : String) : Bool :=
  !s.data.isEmpty && s.data.all Char.isDigit

/-- Python `int(s)` for a digit string. -/
def digitsToNat (s : String) : Nat :=
  s.data.foldl (fun n c => n * 10 + (c.toNat - 48)) 0

/-! ## Country normalization (`normalize_country`, source lines 26-53) -/

/-- The fixed `REGION_TO_COUNTRY` table of the source. -/
def REGION_TO_COUNTRY : List (String × String) :=
  [("SARAWAK", "Malaysia"), ("KCH", "Malaysia"), ("MIRI", "Malaysia")]

/-- The body of `split_camel_case` past the first character: the regex
`(?<!^)(?=[A-Z])` inserts a space before every upper-case ASCII letter
that is not at position 0. -/
def camelGo : List Char → List Char
  | [] => []
  | c :: cs =>
    if 'A' ≤ c ∧ c ≤ 'Z' then ' ' :: c :: camelGo cs else c :: camelGo cs

/-- `split_camel_case` from the source. -/
def splitCamelCase (s : String) : String :=
  match s.data with
  | [] => ""
  | c :: cs => String.mk (c :: camelGo cs)

/-- `normalize_country` from the source, parameterized by the external
`pycountry` exact lookup `L` (`None` models a raised exception) and the
`thefuzz` matcher `F` (best catalog name with its 0-100 score).  The
argument is an `Option` because the caller may pass Python `None`. -/
def normalize_country (L : String → Option String) (F : String → String × Nat)
    (raw : Option String) : String :=
  match raw with
  | none => "Unknown"
  | some r =>
    if r = "" ∨ lowerStr r = "na" then "Unknown"
    else
      let r1 := pyStrip (headSplit '/' (headSplit '_' r))
      let r2 := splitCamelCase r1
      match (REGION_TO_COUNTRY.find? (fun e => e.1 = upperStr r2)).map Prod.snd with
      | some c => c
      | none =>
        match L r2 with
        | some name => name
        | none => if 80 ≤ (F r2).2 then (F r2).1 else "Unknown"

/-- `country_to_continent` from the source, parameterized by the external
chain `conv` (pycountry alpha-2 lookup composed with the two
`pycountry_convert` steps; `none` models any raised exception). -/
def country_to_continent (conv : String → Option String) (country : String) :
    String :=
  if country = "Unknown" then "Unknown"
  else
    match conv country with
    | some cont => cont
    | none => "Unknown"

/-! ## Header parsing (`parse_header`, source lines 69-97) -/

/-- `YEAR_RE.fullmatch(part)`: the regex `(19|20)\d{2}` matched in full. -/
def isYearToken (s : String) : Bool :=
  match s.data with
  | [a, b, c, d] =>
    ((a = '1' ∧ b = '9') ∨ (a = '2' ∧ b = '0')) ∧ c.isDigit ∧ d.isDigit
  | _ => false

/-- One step of the `for part in header.split("|")` loop. -/
def pipeStep (st : Option String × Option Nat) (part : String) :
    Option String × Option Nat :=
  if isYearToken part then (st.1, some (digitsToNat part))
  else if pyIsAlpha part ∨ containsChar '_' part then (some part, st.2)
  else st

/-- One step of the `for part in header.split("/")` loop. -/
def slashStep (year : Option Nat) (part : String) : Option Nat :=
  if pyIsDigit part then
    some (if part.length = 2 then 2000 + digitsToNat part else digitsToNat part)
  else year

/-- Python `x or "Unknown"` on the raw-country slot. -/
def pyOrUnknown : Option String → String
  | none => "Unknown"
  | some s => if s = "" then "Unknown" else s

/-- Python `year or "Unknown"` (`0` is falsy); `none` stands for `"Unknown"`. -/
def pyYear : Option Nat → Option Nat
  | some 0 => none
  | x => x

/-- `parse_header` from the source (without its logging), returning
`(raw_country or "Unknown", country, year or "Unknown")`. -/
def parse_header (L : String → Option String) (F : String → String × Nat)
    (header : String) : String × String × Option Nat :=
  let h := pyStrip (String.mk (header.data.filter (fun c => c ≠ '>')))
  let rawYear : Option String × Option Nat :=
    if containsChar '|' h then
      ((splitChar '|' h.data).map String.mk).foldl pipeStep (none, none)
    else if containsChar '/' h then
      (some "Malaysia",
        ((splitChar '/' h.data).map String.mk).foldl slashStep none)
    else (none, none)
  let country := normalize_country L F rawYear.1
  (pyOrUnknown rawYear.1, country, pyYear rawYear.2)

/-! ## Sequence filtering (`process_sequence`, source lines 103-112) -/

/-- Python truthiness of an optional integer argument (`None` and `0` are
falsy). -/
def truthy : Option Nat → Bool
  | some (_ + 1) => true
  | _ => false

/-- `start - 1 if start else 0`. -/
def idxStart : Option Nat → Nat
  | some (n + 1) => n
  | _ => 0

/-- `stop if stop else len(seq)`. -/
def idxStop (st : Option Nat) (len : Nat) : Nat :=
  match st with
  | some (n + 1) => n + 1
  | _ => len

/-- `seq.upper().lstrip("N").rstrip("N")`. -/
def trimN (l : List Char) : List Char :=
  ((l.dropWhile (fun c => c = 'N')).reverse.dropWhile (fun c => c = 'N')).reverse

/-- Upper-casing, N-trimming and the conditional slice
`seq[(start - 1 if start else 0):(stop if stop else len(seq))]`, which in
Python never raises for non-negative coordinates (out-of-range bounds are
clamped). -/
def sliceStage (seq : List Char) (start stop : Option Nat) : List Char :=
  let s0 := trimN (seq.map Char.toUpper)
  if truthy start ∨ truthy stop then
    (s0.drop (idxStart start)).take (idxStop stop s0.length - idxStart start)
  else s0

/-- `seq[:L]` with `L = len(seq) - (len(seq) % 3)`. -/
def frameTrim (l : List Char) : List Char := l.take (l.length - l.length % 3)

/-- The sequence value just before the length test in `process_sequence`:
upper-cased, N-trimmed, optionally sliced, frame-truncated. -/
def prepCore (seq : List Char) (start stop : Option Nat) : List Char :=
  frameTrim (sliceStage seq start stop)

/-- `process_sequence` from the source. -/
def process_sequence (seq : List Char) (start stop : Option Nat) :
    Option (List Char) :=
  let s2 := prepCore seq start stop
  if 90 ≤ s2.length then some s2 else none

/-! ## Task generation (`main`, source lines 214-228) -/

/-- The fields of a retained record that task generation reads. -/
structure Rec where
  seq : String
  country : String
deriving DecidableEq, Repr

/-- One KaKs task tuple `(a, b, c1, c2, genetic_code, method, verbose)`. -/
structure KTask where
  a : String
  b : String
  gA : String
  gB : String
  gc : Nat
  method : String
  verbose : Bool
deriving DecidableEq, Repr

/-- `pandas.unique` with an explicit seen-set: first-occurrence
deduplication. -/
def firstDedupAux (seen : List String) : List String → List String
  | [] => []
  | x :: xs =>
    if x ∈ seen then firstDedupAux seen xs
    else x :: firstDedupAux (x :: seen) xs

/-- `pandas.unique`: first-occurrence deduplication. -/
def firstDedup (l : List String) : List String := firstDedupAux [] l

/-- `[c for c in df.country.unique() if c != "Unknown"]`. -/
def uniqueCountries (rs : List Rec) : List String :=
  (firstDedup (rs.map Rec.country)).filter (fun c => c ≠ "Unknown")

/-- `df[df.country == c].seq` (dataframe order preserved). -/
def seqsOf (rs : List Rec) (c : String) : List String :=
  (rs.filter (fun r => r.country = c)).map Rec.seq

/-- `itertools.combinations(l, 2)`: all ordered pairs `(l[i], l[j])`, `i < j`. -/
def pairsOf {α : Type} : List α → List (α × α)
  | [] => []
  | x :: xs => xs.map (fun y => (x, y)) ++ pairsOf xs

/-- The task list built by `main`: cross-country Cartesian products over
`itertools.combinations(countries, 2)`, then within-country
`itertools.combinations(seqs, 2)`. -/
def genTasks (rs : List Rec) (gc : Nat) (method : String) (verbose : Bool) :
    List KTask :=
  ((pairsOf (uniqueCountries rs)).flatMap fun p =>
    (seqsOf rs p.1).flatMap fun a =>
      (seqsOf rs p.2).map fun b =>
        ⟨a, b, p.1, p.2, gc, method, verbose⟩) ++
  ((uniqueCountries rs).flatMap fun c =>
    (pairsOf (seqsOf rs c)).map fun p =>
      ⟨p.1, p.2, c, c, gc, method, verbose⟩)

/-! ## Aggregation and row emission (`main`, source lines 235-274) -/

/-- A successful per-pair oracle result as labelled by `run_kaks_worker`:
the task's own group labels plus the two scalars (modelled in `ℚ`). -/
structure PairResult where
  gA : String
  gB : String
  ka : ℚ
  ks : ℚ
deriving DecidableEq, Repr

/-- Grouping key `(gA, gB)`. -/
abbrev AggKey := String × String

/-- Per-key accumulated `(Ka, Ks)` values. -/
abbrev Vals := List (ℚ × ℚ)

/-- `agg.setdefault(key, []).append(v)` on an insertion-ordered dict
modelled as an association list: append to the first entry with the key,
or append a fresh entry at the end. -/
def insertAgg : List (AggKey × Vals) → AggKey → ℚ × ℚ → List (AggKey × Vals)
  | [], k, v => [(k, [v])]
  | e :: rest, k, v =>
    if e.1 = k then (e.1, e.2 ++ [v]) :: rest else e :: insertAgg rest k v

/-- One step of the `for r in results` grouping loop (`None` is skipped). -/
def aggStep (acc : List (AggKey × Vals)) (r : Option PairResult) :
    List (AggKey × Vals) :=
  match r with
  | none => acc
  | some r => insertAgg acc (r.gA, r.gB) (r.ka, r.ks)

/-- The `agg` dict built from the results list. -/
def buildAgg (results : List (Option PairResult)) : List (AggKey × Vals) :=
  results.foldl aggStep []

/-- `math.inf`-or-rational value of the `Ka/Ks` column. -/
inductive Val where
  | inf : Val
  | val : ℚ → Val
deriving DecidableEq, Repr

/-- `sum(v[0] for v in vals) / len(vals)`. -/
def meanKaOf (vs : Vals) : ℚ := (vs.map Prod.fst).sum / (vs.length : ℚ)

/-- `sum(v[1] for v in vals) / len(vals)`. -/
def meanKsOf (vs : Vals) : ℚ := (vs.map Prod.snd).sum / (vs.length : ℚ)

/-- `math.inf if mean_ks == 0 else mean_ka / mean_ks`. -/
def ratioOf (vs : Vals) : Val :=
  if meanKsOf vs = 0 then Val.inf else Val.val (meanKaOf vs / meanKsOf vs)

/-- One output row. -/
structure Row where
  gA : String
  gB : String
  contA : String
  contB : String
  meanKa : ℚ
  meanKs : ℚ
  ratio : Val
  pairs : Nat
  gene : Option String
  start : Option Nat
  stop : Option Nat
deriving DecidableEq, Repr

/-- The `base` dict built for one aggregate entry. -/
def baseRow (conv : String → Option String) (gene : Option String)
    (start stop : Option Nat) (e : AggKey × Vals) : Row :=
  ⟨e.1.1, e.1.2, country_to_continent conv e.1.1, country_to_continent conv e.1.2,
    meanKaOf e.2, meanKsOf e.2, ratioOf e.2, e.2.length, gene, start, stop⟩

/-- The mirrored `{**base, swapped labels and continents}` dict. -/
def swapRow (r : Row) : Row :=
  { r with gA := r.gB, gB := r.gA, contA := r.contB, contB := r.contA }

/-- The rows appended for one aggregate entry: the base row always, the
mirrored row additionally when `gA != gB`. -/
def entryRows (conv : String → Option String) (gene : Option String)
    (start stop : Option Nat) (e : AggKey × Vals) : List Row :=
  baseRow conv gene start stop e ::
    (if e.1.1 ≠ e.1.2 then [swapRow (baseRow conv gene start stop e)] else [])

/-- The full `rows` list of `main`, in `agg` iteration order. -/
def mkRows (conv : String → Option String) (gene : Option String)
    (start stop : Option Nat) (agg : List (AggKey × Vals)) : List Row :=
  agg.flatMap (entryRows conv gene start stop)

/-! ## Pipeline skeleton (`main`, source lines 208-276) -/

/-- The post-parsing control flow of `main`: fatal exit (modelled as
`Except.error` with the logged message, no rows produced) when no records
survived filtering or when the aggregate is empty, otherwise the output
rows.  The external oracle is a parameter; per `run_kaks_worker` a
successful call is labelled with the task's own groups. -/
def runPipeline (conv : String → Option String) (gene : Option String)
    (start stop : Option Nat) (gc : Nat) (method : String) (verbose : Bool)
    (oracle : KTask → Option (ℚ × ℚ)) (records : List Rec) :
    Except String (List Row) :=
  if records = [] then Except.error "No usable sequences after filtering"
  else
    let tasks := genTasks records gc method verbose
    let results := tasks.map fun t =>
      (oracle t).map fun q => PairResult.mk t.gA t.gB q.1 q.2
    let agg := buildAgg results
    if agg = [] then Except.error "KaKs_Calculator produced zero usable results"
    else Except.ok (mkRows conv gene start stop agg)

/-! ## Statement apparatus: grouping and counting helpers -/

/-- The `(Ka, Ks)` values of all successful results labelled `k`, in list
order: the grouping the aggregate is claimed to realize. -/
def valsFor (l : List (Option PairResult)) (k : AggKey) : Vals :=
  l.filterMap fun o =>
    o.bind fun r => if (r.gA, r.gB) = k then some (r.ka, r.ks) else none

/-- First occurrences of the keys of the successful results of `l` that are
not in `seen`, in order of first arrival. -/
def keysNotIn (seen : List AggKey) : List (Option PairResult) → List AggKey
  | [] => []
  | none :: rest => keysNotIn seen rest
  | some r :: rest =>
    if (r.gA, r.gB) ∈ seen then keysNotIn seen rest
    else (r.gA, r.gB) :: keysNotIn ((r.gA, r.gB) :: seen) rest

/-- The distinct keys of the successful results, in first-arrival order. -/
def keysOf (l : List (Option PairResult)) : List AggKey := keysNotIn [] l

/-- Number of occurrences of `a` in `l` (propositional equality count). -/
def countEq {α : Type} [DecidableEq α] (a : α) (l : List α) : Nat :=
  l.countP fun x => x = a

/-- Cartesian product of two lists, row-major. -/
def pairProd {α : Type} (s1 s2 : List α) : List (α × α) :=
  s1.flatMap fun a => s2.map fun b => (a, b)

/-- `t` is the task comparing sequence `a` of country `c1` with sequence
`b` of country `c2`, in either orientation. -/
def isCrossTask (c1 c2 a b : String) (t : KTask) : Prop :=
  (t.gA = c1 ∧ t.gB = c2 ∧ t.a = a ∧ t.b = b) ∨
  (t.gA = c2 ∧ t.gB = c1 ∧ t.a = b ∧ t.b = a)

instance (c1 c2 a b : String) (t : KTask) : Decidable (isCrossTask c1 c2 a b t) := by
  unfold isCrossTask
  infer_instance

/-- `t` is the within-country task of country `c` comparing sequences `a`
and `b`, in either orientation. -/
def isWithinTask (c a b : String) (t : KTask) : Prop :=
  t.gA = c ∧ t.gB = c ∧ ((t.a = a ∧ t.b = b) ∨ (t.a = b ∧ t.b = a))

instance (c a b : String) (t : KTask) : Decidable (isWithinTask c a b t) := by
  unfold isWithinTask
  infer_instance

/-- `n` is a canonical catalog country name as far as `normalize_country`
can observe it: it is not a sentinel token, the suffix-stripping and
whitespace-stripping steps leave it unchanged, the region table does not
capture it, and the external catalog resolution (exact lookup, or fuzzy
matching at score at least 80) maps its camel-split form back to `n`
itself. -/
def canonicalFix (L : String → Option String) (F : String → String × Nat)
    (n : String) : Prop :=
  n ≠ "" ∧ lowerStr n ≠ "na" ∧
  pyStrip (headSplit '/' (headSplit '_' n)) = n ∧
  (REGION_TO_COUNTRY.find? fun e => e.1 = upperStr (splitCamelCase n)) = none ∧
  (L (splitCamelCase n) = some n ∨
    (L (splitCamelCase n) = none ∧ (F (splitCamelCase n)).1 = n ∧
      80 ≤ (F (splitCamelCase n)).2))

instance (L : String → Option String) (F : String → String × Nat)
    (n : String) : Decidable (canonicalFix L F n) := by
  unfold canonicalFix
  infer_instance

/-! ## Concrete instantiations of the external collaborators, used in
closed evaluations -/

/-- An external catalog lookup that always fails. -/
def extLookup0 : String → Option String := fun _ => none

/-- A fuzzy matcher that never reaches the acceptance threshold. -/
def extFuzz0 : String → String × Nat := fun _ => ("", 0)

/-- A case-insensitive one-entry catalog, resolving Malaysia. -/
def extLookupMY : String → Option String :=
  fun s => if upperStr s = "MALAYSIA" then some "Malaysia" else none

/-- A continent conversion chain that always fails. -/
def conv0 : String → Option String := fun _ => none

/-- An oracle that fails on every task. -/
def oracle0 : KTask → Option (ℚ × ℚ) := fun _ => none

/-- An oracle that succeeds on every task with `Ka = Ks = 1`. -/
def oracle1 : KTask → Option (ℚ × ℚ) := fun _ => some (1, 1)

/-- Two retained records from two countries. -/
def records1 : List Rec := [⟨"s1", "A"⟩, ⟨"s2", "B"⟩]

/-- The aggregation example of the spec:
`{(A,B,Ka=0.2,Ks=0.1), (A,B,Ka=0.4,Ks=0.1)}`. -/
def results2 : List (Option PairResult) :=
  [some ⟨"A", "B", 1/5, 1/10⟩, some ⟨"A", "B", 2/5, 1/10⟩]

/-- Two successful results with different labels, in one order… -/
def resultsP : List (Option PairResult) :=
  [some ⟨"A", "B", 1, 1⟩, some ⟨"C", "D", 2, 2⟩]

/-- …and in the other order. -/
def resultsQ : List (Option PairResult) :=
  [some ⟨"C", "D", 2, 2⟩, some ⟨"A", "B", 1, 1⟩]

/-- One result for claim C3's witness. -/
def results3 : List (Option PairResult) := [some ⟨"A", "B", 1, 2⟩]

/-- The task-generation example of the spec: countries with 2, 3 and 1
sequences, plus one record whose country is `"Unknown"`. -/
def exRecords : List Rec :=
  [⟨"a1", "A"⟩, ⟨"a2", "A"⟩, ⟨"b1", "B"⟩, ⟨"b2", "B"⟩, ⟨"b3", "B"⟩,
    ⟨"c1", "C"⟩, ⟨"u1", "Unknown"⟩]

/-! ## Helper lemmas: the aggregate dict realizes label-based grouping -/

theorem valsFor_nil (k : AggKey) : valsFor [] k = [] := rfl

theorem valsFor_cons_none (l : List (Option PairResult)) (k : AggKey) :
    valsFor (none :: l) k = valsFor l k := by
  simp [valsFor, List.filterMap_cons]

theorem valsFor_cons_some (r : PairResult) (l : List (Option PairResult))
    (k : AggKey) :
    valsFor (some r :: l) k =
      if (r.gA, r.gB) = k then (r.ka, r.ks) :: valsFor l k else valsFor l k := by
  by_cases h : (r.gA, r.gB) = k <;> simp [valsFor, List.filterMap_cons, h]

theorem keysNotIn_nil (seen : List AggKey) : keysNotIn seen [] = [] := rfl

theorem keysNotIn_cons_none (seen : List AggKey) (l : List (Option PairResult)) :
    keysNotIn seen (none :: l) = keysNotIn seen l := rfl

theorem keysNotIn_cons_some (seen : List AggKey) (r : PairResult)
    (l : List (Option PairResult)) :
    keysNotIn seen (some r :: l) =
      if (r.gA, r.gB) ∈ seen then keysNotIn seen l
      else (r.gA, r.gB) :: keysNotIn ((r.gA, r.gB) :: seen) l := rfl

theorem keysNotIn_congr :
    ∀ (l : List (Option PairResult)) (seen seen' : List AggKey),
      (∀ k, k ∈ seen ↔ k ∈ seen') → keysNotIn seen l = keysNotIn seen' l := by
  intro l
  induction l with
  | nil => intro seen seen' _; rfl
  | cons o rest ih =>
    intro seen seen' h
    cases o with
    | none => simpa [keysNotIn_cons_none] using ih seen seen' h
    | some r =>
      rw [keysNotIn_cons_some, keysNotIn_cons_some]
      by_cases hm : (r.gA, r.gB) ∈ seen
      · rw [if_pos hm, if_pos ((h _).mp hm), ih _ _ h]
      · rw [if_neg hm, if_neg (fun c => hm ((h _).mpr c)),
          ih ((r.gA, r.gB) :: seen) ((r.gA, r.gB) :: seen')
            (by intro k; simp [h k])]

theorem mem_keysNotIn :
    ∀ (l : List (Option PairResult)) (seen : List AggKey) (k : AggKey),
      k ∈ keysNotIn seen l ↔ k ∉ seen ∧ valsFor l k ≠ [] := by
  intro l
  induction l with
  | nil => intro seen k; simp [keysNotIn_nil, valsFor_nil]
  | cons o rest ih =>
    intro seen k
    cases o with
    | none => simp [keysNotIn_cons_none, valsFor_cons_none, ih]
    | some r =>
      rw [keysNotIn_cons_some, valsFor_cons_some]
      by_cases hm : (r.gA, r.gB) ∈ seen
      · rw [if_pos hm, ih]
        by_cases hk : (r.gA, r.gB) = k
        · subst hk; simp [hm]
        · rw [if_neg hk]
      · rw [if_neg hm]
        by_cases hk : (r.gA, r.gB) = k
        · subst hk; simp [hm]
        · rw [if_neg hk]
          simp only [List.mem_cons, ih, List.mem_cons]
          constructor
          · rintro (h | ⟨hs, hv⟩)
            · exact absurd h.symm hk
            · exact ⟨fun c => hs (Or.inr c), hv⟩
          · rintro ⟨hs, hv⟩
            exact Or.inr ⟨fun c => c.elim (fun e => hk e.symm) hs, hv⟩

theorem keysNotIn_nodup :
    ∀ (l : List (Option PairResult)) (seen : List AggKey),
      (keysNotIn seen l).Nodup := by
  intro l
  induction l with
  | nil => intro seen; simp [keysNotIn_nil]
  | cons o rest ih =>
    intro seen
    cases o with
    | none => simpa [keysNotIn_cons_none] using ih seen
    | some r =>
      rw [keysNotIn_cons_some]
      by_cases hm : (r.gA, r.gB) ∈ seen
      · rw [if_pos hm]; exact ih seen
      · rw [if_neg hm, List.nodup_cons]
        refine ⟨fun c => ?_, ih _⟩
        exact ((mem_keysNotIn _ _ _).mp c).1 (List.mem_cons_self _ _)

theorem mem_keysOf (l : List (Option PairResult)) (k : AggKey) :
    k ∈ keysOf l ↔ valsFor l k ≠ [] := by
  simp [keysOf, mem_keysNotIn]

theorem keysOf_nodup (l : List (Option PairResult)) : (keysOf l).Nodup :=
  keysNotIn_nodup l []

theorem insertAgg_of_mem :
    ∀ (acc : List (AggKey × Vals)) (k : AggKey) (v : ℚ × ℚ),
      (acc.map Prod.fst).Nodup → k ∈ acc.map Prod.fst →
      insertAgg acc k v =
        acc.map fun e => if e.1 = k then (e.1, e.2 ++ [v]) else e := by
  intro acc
  induction acc with
  | nil => intro k v _ hk; simp at hk
  | cons e rest ih =>
    intro k v hnd hk
    simp only [List.map_cons, List.nodup_cons] at hnd
    by_cases he : e.1 = k
    · simp only [insertAgg, if_pos he, List.map_cons, if_pos he]
      have hrest : ∀ e' ∈ rest,
          (if e'.1 = k then (e'.1, e'.2 ++ [v]) else e') = e' := by
        intro e' he'
        have hne : ¬ e'.1 = k := by
          intro c
          exact hnd.1 (he ▸ c ▸ List.mem_map_of_mem Prod.fst he')
        simp [hne]
      rw [List.map_congr_left hrest]
      simp
    · have hk' : k ∈ rest.map Prod.fst := by
        rcases List.mem_cons.mp hk with h | h
        · exact absurd h.symm he
        · exact h
      simp only [insertAgg, if_neg he, List.map_cons, if_neg he,
        ih k v hnd.2 hk']

theorem insertAgg_of_notMem :
    ∀ (acc : List (AggKey × Vals)) (k : AggKey) (v : ℚ × ℚ),
      k ∉ acc.map Prod.fst → insertAgg acc k v = acc ++ [(k, [v])] := by
  intro acc
  induction acc with
  | nil => intro k v _; rfl
  | cons e rest ih =>
    intro k v hk
    simp only [List.map_cons, List.mem_cons] at hk
    push_neg at hk
    have hne : ¬ e.1 = k := fun c => hk.1 c.symm
    simp only [insertAgg, if_neg hne, List.cons_append, ih k v hk.2]

theorem foldAgg_char :
    ∀ (l : List (Option PairResult)) (acc : List (AggKey × Vals)),
      (acc.map Prod.fst).Nodup →
      l.foldl aggStep acc =
        (acc.map fun e => (e.1, e.2 ++ valsFor l e.1)) ++
        ((keysNotIn (acc.map Prod.fst) l).map fun k => (k, valsFor l k)) := by
  intro l
  induction l with
  | nil =>
    intro acc _
    simp [valsFor_nil, keysNotIn_nil]
  | cons o rest ih =>
    intro acc hnd
    cases o with
    | none =>
      simp only [List.foldl_cons]
      show rest.foldl aggStep acc = _
      rw [ih acc hnd]
      simp [valsFor_cons_none, keysNotIn_cons_none]
    | some r =>
      simp only [List.foldl_cons]
      show rest.foldl aggStep (insertAgg acc (r.gA, r.gB) (r.ka, r.ks)) = _
      by_cases hk : (r.gA, r.gB) ∈ acc.map Prod.fst
      · rw [insertAgg_of_mem acc _ _ hnd hk]
        have hfst : (acc.map fun e =>
            if e.1 = (r.gA, r.gB) then (e.1, e.2 ++ [(r.ka, r.ks)]) else e).map
              Prod.fst = acc.map Prod.fst := by
          rw [List.map_map]
          refine List.map_congr_left ?_
          intro e _
          by_cases he : e.1 = (r.gA, r.gB) <;> simp [he]
        rw [ih _ (by rw [hfst]; exact hnd), hfst]
        congr 1
        · rw [List.map_map]
          refine List.map_congr_left ?_
          intro e _
          by_cases he : e.1 = (r.gA, r.gB)
          · have he' : (r.gA, r.gB) = e.1 := he.symm
            simp only [Function.comp_apply, if_pos he, valsFor_cons_some,
              if_pos he', List.append_assoc, List.singleton_append]
          · have he' : ¬ (r.gA, r.gB) = e.1 := fun c => he c.symm
            simp only [Function.comp_apply, if_neg he, valsFor_cons_some,
              if_neg he']
        · rw [keysNotIn_cons_some, if_pos hk]
          refine List.map_congr_left ?_
          intro x hx
          have hxk : ¬ (r.gA, r.gB) = x := by
            intro c
            exact ((mem_keysNotIn _ _ _).mp hx).1 (c ▸ hk)
          rw [valsFor_cons_some, if_neg hxk]
      · rw [insertAgg_of_notMem acc _ _ hk]
        have hfst : ((acc ++ [((r.gA, r.gB), [(r.ka, r.ks)])]).map Prod.fst) =
            acc.map Prod.fst ++ [(r.gA, r.gB)] := by simp
        have hnd' : (((acc ++ [((r.gA, r.gB), [(r.ka, r.ks)])]).map
            Prod.fst)).Nodup := by
          rw [hfst]
          refine List.Nodup.append hnd (List.nodup_singleton _) ?_
          intro a ha hb
          rw [List.mem_singleton] at hb
          subst hb
          exact hk ha
        rw [ih _ hnd', hfst]
        rw [keysNotIn_cons_some, if_neg hk]
        rw [keysNotIn_congr rest (acc.map Prod.fst ++ [(r.gA, r.gB)])
          ((r.gA, r.gB) :: acc.map Prod.fst) (by intro x; simp; tauto)]
        simp only [List.map_append, List.map_cons, List.map_nil]
        rw [List.append_assoc]
        congr 1
        · refine List.map_congr_left ?_
          intro e he
          have hne : ¬ (r.gA, r.gB) = e.1 := by
            intro c
            exact hk (c ▸ List.mem_map_of_mem Prod.fst he)
          rw [valsFor_cons_some, if_neg hne]
        · have hhead : valsFor (some r :: rest) (r.gA, r.gB) =
              (r.ka, r.ks) :: valsFor rest (r.gA, r.gB) := by
            rw [valsFor_cons_some, if_pos rfl]
          have htail : ∀ x ∈ keysNotIn ((r.gA, r.gB) :: acc.map Prod.fst) rest,
              ((x, valsFor rest x) : AggKey × Vals) =
                (x, valsFor (some r :: rest) x) := by
            intro x hx
            have hxk : ¬ (r.gA, r.gB) = x := by
              intro c
              exact ((mem_keysNotIn _ _ _).mp hx).1 (c ▸ List.mem_cons_self _ _)
            rw [valsFor_cons_some, if_neg hxk]
          rw [List.map_congr_left htail]
          simp [hhead]

theorem buildAgg_eq (l : List (Option PairResult)) :
    buildAgg l = (keysOf l).map fun k => (k, valsFor l k) := by
  simpa [buildAgg, keysOf] using foldAgg_char l [] (by simp)


/-! ## Helper lemmas: rows, statistics and permutations -/

theorem valsFor_perm {l l' : List (Option PairResult)} (h : l.Perm l')
    (k : AggKey) : (valsFor l k).Perm (valsFor l' k) :=
  List.Perm.filterMap _ h

theorem meanKaOf_congr {vs vs' : Vals} (h : vs.Perm vs') :
    meanKaOf vs = meanKaOf vs' := by
  unfold meanKaOf
  rw [List.Perm.sum_eq (List.Perm.map Prod.fst h), List.Perm.length_eq h]

theorem meanKsOf_congr {vs vs' : Vals} (h : vs.Perm vs') :
    meanKsOf vs = meanKsOf vs' := by
  unfold meanKsOf
  rw [List.Perm.sum_eq (List.Perm.map Prod.snd h), List.Perm.length_eq h]

theorem ratioOf_congr {vs vs' : Vals} (h : vs.Perm vs') :
    ratioOf vs = ratioOf vs' := by
  unfold ratioOf
  rw [meanKaOf_congr h, meanKsOf_congr h]

theorem entryRows_congr (conv : String → Option String) (gene : Option String)
    (start stop : Option Nat) (k : AggKey) {vs vs' : Vals} (h : vs.Perm vs') :
    entryRows conv gene start stop (k, vs) =
      entryRows conv gene start stop (k, vs') := by
  unfold entryRows baseRow
  simp only [meanKaOf_congr h, meanKsOf_congr h, ratioOf_congr h,
    List.Perm.length_eq h]

theorem keysOf_perm {l l' : List (Option PairResult)} (h : l.Perm l') :
    (keysOf l).Perm (keysOf l') := by
  rw [List.perm_ext_iff_of_nodup (keysOf_nodup l) (keysOf_nodup l')]
  intro k
  rw [mem_keysOf, mem_keysOf]
  constructor
  · intro hne c
    exact hne (List.Perm.eq_nil ((valsFor_perm h k).trans (c ▸ List.Perm.refl _)))
  · intro hne c
    exact hne (List.Perm.eq_nil ((valsFor_perm h.symm k).trans
      (c ▸ List.Perm.refl _)))

theorem mkRows_buildAgg (conv : String → Option String) (gene : Option String)
    (start stop : Option Nat) (l : List (Option PairResult)) :
    mkRows conv gene start stop (buildAgg l) =
      (keysOf l).flatMap fun k =>
        entryRows conv gene start stop (k, valsFor l k) := by
  rw [mkRows, buildAgg_eq, List.flatMap_map]

theorem flatMap_perm_of_forall {α β : Type} {l : List α} {f g : α → List β}
    (h : ∀ x ∈ l, (f x).Perm (g x)) : (l.flatMap f).Perm (l.flatMap g) := by
  induction l with
  | nil => simp
  | cons x xs ih =>
    simp only [List.flatMap_cons]
    exact List.Perm.append (h x (List.mem_cons_self _ _))
      (ih fun y hy => h y (List.mem_cons_of_mem _ hy))

theorem swapRow_swapRow (r : Row) : swapRow (swapRow r) = r := rfl

theorem swapRow_entryRows_perm (conv : String → Option String)
    (gene : Option String) (start stop : Option Nat) (e : AggKey × Vals) :
    ((entryRows conv gene start stop e).map swapRow).Perm
      (entryRows conv gene start stop e) := by
  by_cases he : e.1.1 = e.1.2
  · have hswap : swapRow (baseRow conv gene start stop e) =
        baseRow conv gene start stop e := by
      unfold swapRow baseRow
      simp [he]
    simp [entryRows, he, hswap]
  · simp only [entryRows, if_pos he, List.map_cons, List.map_nil,
      swapRow_swapRow]
    exact List.Perm.swap _ _ _

/-! ## Helper lemmas: pair enumeration and counting -/

theorem countP_flatMap {α β : Type} (l : List α) (f : α → List β)
    (p : β → Bool) :
    (l.flatMap f).countP p = (l.map fun x => (f x).countP p).sum := by
  induction l with
  | nil => simp
  | cons x xs ih => simp [List.flatMap_cons, List.countP_append, ih]

theorem sum_map_ite {α : Type} (l : List α) (Q : α → Prop) [DecidablePred Q] :
    (l.map fun x => if Q x then 1 else 0).sum =
      l.countP fun x => decide (Q x) := by
  induction l with
  | nil => simp
  | cons x xs ih =>
    simp only [List.map_cons, List.sum_cons, List.countP_cons, ih]
    by_cases h : Q x <;> simp [h, Nat.add_comm]

theorem countEq_eq_zero {α : Type} [DecidableEq α] {a : α} {l : List α}
    (h : a ∉ l) : countEq a l = 0 := by
  rw [countEq, List.countP_eq_zero]
  intro x hx
  simp only [decide_eq_true_eq]
  intro c
  exact h (c ▸ hx)

theorem countEq_eq_one {α : Type} [DecidableEq α] {a : α} {l : List α}
    (hnd : l.Nodup) (ha : a ∈ l) : countEq a l = 1 := by
  induction l with
  | nil => simp at ha
  | cons x xs ih =>
    rw [List.nodup_cons] at hnd
    rcases List.mem_cons.mp ha with h | h
    · subst h
      rw [countEq, List.countP_cons]
      have h0 : countEq a xs = 0 := countEq_eq_zero hnd.1
      rw [countEq] at h0
      simp [h0]
    · have hx : ¬ x = a := by
        intro c
        exact hnd.1 (c ▸ h)
      rw [countEq, List.countP_cons]
      have h1 := ih hnd.2 h
      rw [countEq] at h1
      simp [h1, hx]

theorem mem_pairProd {α : Type} (s1 s2 : List α) (q : α × α) :
    q ∈ pairProd s1 s2 ↔ q.1 ∈ s1 ∧ q.2 ∈ s2 := by
  cases q with
  | mk a b =>
    simp only [pairProd, List.mem_flatMap, List.mem_map, Prod.mk.injEq]
    constructor
    · rintro ⟨x, hx, y, hy, hxy1, hxy2⟩
      exact ⟨hxy1 ▸ hx, hxy2 ▸ hy⟩
    · rintro ⟨ha, hb⟩
      exact ⟨a, ha, b, hb, rfl, rfl⟩

theorem pairProd_countP {α : Type} [DecidableEq α] (s1 s2 : List α) (a b : α) :
    (pairProd s1 s2).countP (fun q => q.1 = a ∧ q.2 = b) =
      countEq a s1 * countEq b s2 := by
  induction s1 with
  | nil => simp [pairProd, countEq]
  | cons x xs ih =>
    simp only [pairProd, List.flatMap_cons, List.countP_append] at ih ⊢
    rw [ih, List.countP_map]
    have hcnt : countEq a (x :: xs) = countEq a xs + if x = a then 1 else 0 := by
      rw [countEq, countEq, List.countP_cons]
      simp
    rw [hcnt]
    by_cases h : x = a
    · subst h
      have hfn : ((fun (q : α × α) => decide (q.1 = x ∧ q.2 = b)) ∘
          fun y => (x, y)) = fun y => decide (y = b) := by
        funext y
        simp
      rw [hfn]
      have hc : List.countP (fun y => decide (y = b)) s2 = countEq b s2 := rfl
      rw [hc]
      simp
      ring
    · have hfn : ((fun (q : α × α) => decide (q.1 = a ∧ q.2 = b)) ∘
          fun y => (x, y)) = fun _ => false := by
        funext y
        simp [h]
      rw [hfn]
      simp [h]

theorem mem_pairsOf {α : Type} :
    ∀ (l : List α) (p : α × α), p ∈ pairsOf l → p.1 ∈ l ∧ p.2 ∈ l := by
  intro l
  induction l with
  | nil => intro p hp; simp [pairsOf] at hp
  | cons x xs ih =>
    intro p hp
    rw [pairsOf, List.mem_append] at hp
    rcases hp with h | h
    · rcases List.mem_map.mp h with ⟨y, hy, hxy⟩
      subst hxy
      exact ⟨List.mem_cons_self _ _, List.mem_cons_of_mem _ hy⟩
    · rcases ih p h with ⟨h1, h2⟩
      exact ⟨List.mem_cons_of_mem _ h1, List.mem_cons_of_mem _ h2⟩

theorem pairsOf_ne {α : Type} :
    ∀ {l : List α}, l.Nodup → ∀ p ∈ pairsOf l, p.1 ≠ p.2 := by
  intro l
  induction l with
  | nil => intro _ p hp; simp [pairsOf] at hp
  | cons x xs ih =>
    intro hnd p hp
    rw [List.nodup_cons] at hnd
    rw [pairsOf, List.mem_append] at hp
    rcases hp with h | h
    · rcases List.mem_map.mp h with ⟨y, hy, hxy⟩
      subst hxy
      intro c
      exact hnd.1 ((show x = y from c) ▸ hy)
    · exact ih hnd.2 p h

theorem pairsOf_countP_zero {α : Type} [DecidableEq α] {l : List α}
    {P : α × α → Prop} [DecidablePred P]
    (h : ∀ p : α × α, p.1 ∈ l → p.2 ∈ l → ¬ P p) :
    (pairsOf l).countP (fun p => P p) = 0 := by
  rw [List.countP_eq_zero]
  intro p hp
  rcases mem_pairsOf l p hp with ⟨h1, h2⟩
  simpa using h p h1 h2

theorem pairsOf_countP_orient {α : Type} [DecidableEq α] :
    ∀ {l : List α} {a b : α}, l.Nodup → a ∈ l → b ∈ l → a ≠ b →
      (pairsOf l).countP
        (fun p => (p.1 = a ∧ p.2 = b) ∨ (p.1 = b ∧ p.2 = a)) = 1 := by
  intro l
  induction l with
  | nil => intro a b _ ha; simp at ha
  | cons x xs ih =>
    intro a b hnd ha hb hab
    rw [List.nodup_cons] at hnd
    rw [pairsOf, List.countP_append, List.countP_map]
    rcases List.mem_cons.mp ha with hax | hax
    · subst hax
      have hbx : b ∈ xs := by
        rcases List.mem_cons.mp hb with h | h
        · exact absurd h.symm hab
        · exact h
      have hfn : ((fun (p : α × α) =>
          decide ((p.1 = a ∧ p.2 = b) ∨ (p.1 = b ∧ p.2 = a))) ∘
            fun y => (a, y)) = fun y => decide (y = b) := by
        funext y
        have hxb : ¬ a = b := hab
        simp [hxb]
      rw [hfn]
      have hone : List.countP (fun y => decide (y = b)) xs = 1 :=
        countEq_eq_one hnd.2 hbx
      have hzero : (pairsOf xs).countP (fun p =>
          decide ((p.1 = a ∧ p.2 = b) ∨ (p.1 = b ∧ p.2 = a))) = 0 := by
        rw [List.countP_eq_zero]
        intro p hp
        rcases mem_pairsOf xs p hp with ⟨h1, h2⟩
        simp only [decide_eq_true_eq]
        rintro (⟨c1, _⟩ | ⟨_, c2⟩)
        · exact hnd.1 (c1 ▸ h1)
        · exact hnd.1 (c2 ▸ h2)
      rw [hone, hzero]
    · rcases List.mem_cons.mp hb with hbx | hbx
      · subst hbx
        have hfn : ((fun (p : α × α) =>
            decide ((p.1 = a ∧ p.2 = b) ∨ (p.1 = b ∧ p.2 = a))) ∘
              fun y => (b, y)) = fun y => decide (y = a) := by
          funext y
          have hxa : ¬ b = a := fun c => hab c.symm
          simp [hxa]
        rw [hfn]
        have hone : List.countP (fun y => decide (y = a)) xs = 1 :=
          countEq_eq_one hnd.2 hax
        have hzero : (pairsOf xs).countP (fun p =>
            decide ((p.1 = a ∧ p.2 = b) ∨ (p.1 = b ∧ p.2 = a))) = 0 := by
          rw [List.countP_eq_zero]
          intro p hp
          rcases mem_pairsOf xs p hp with ⟨h1, h2⟩
          simp only [decide_eq_true_eq]
          rintro (⟨_, c1⟩ | ⟨c2, _⟩)
          · exact hnd.1 (c1 ▸ h2)
          · exact hnd.1 (c2 ▸ h1)
        rw [hone, hzero]
      · have hfn : ((fun (p : α × α) =>
            decide ((p.1 = a ∧ p.2 = b) ∨ (p.1 = b ∧ p.2 = a))) ∘
              fun y => (x, y)) = fun _ => false := by
          funext y
          have hxa : ¬ x = a := fun c => hnd.1 (c ▸ hax)
          have hxb : ¬ x = b := fun c => hnd.1 (c ▸ hbx)
          simp [hxa, hxb]
        rw [hfn]
        have h0 : List.countP (fun (_ : α) => false) xs = 0 := by simp
        rw [h0, Nat.zero_add]
        exact ih hnd.2 hax hbx hab

theorem mem_firstDedupAux :
    ∀ (l seen : List String) (x : String),
      x ∈ firstDedupAux seen l ↔ x ∉ seen ∧ x ∈ l := by
  intro l
  induction l with
  | nil => intro seen x; simp [firstDedupAux]
  | cons y ys ih =>
    intro seen x
    by_cases hy : y ∈ seen
    · rw [firstDedupAux, if_pos hy, ih]
      constructor
      · rintro ⟨hs, hm⟩
        exact ⟨hs, List.mem_cons_of_mem _ hm⟩
      · rintro ⟨hs, hm⟩
        rcases List.mem_cons.mp hm with h | h
        · exact absurd (show x ∈ seen by rw [h]; exact hy) hs
        · exact ⟨hs, h⟩
    · rw [firstDedupAux, if_neg hy]
      constructor
      · intro hmem
        rcases List.mem_cons.mp hmem with h | h
        · refine ⟨fun c => hy ?_, List.mem_cons.mpr (Or.inl h)⟩
          rw [← h]
          exact c
        · have h' := (ih _ x).mp h
          exact ⟨fun c => h'.1 (List.mem_cons_of_mem _ c),
            List.mem_cons_of_mem _ h'.2⟩
      · rintro ⟨hs, hm⟩
        rcases List.mem_cons.mp hm with h | h
        · exact List.mem_cons.mpr (Or.inl h)
        · by_cases hxy : x = y
          · exact List.mem_cons.mpr (Or.inl hxy)
          · refine List.mem_cons.mpr (Or.inr ((ih _ x).mpr ⟨?_, h⟩))
            intro c
            rcases List.mem_cons.mp c with c1 | c2
            · exact hxy c1
            · exact hs c2

theorem firstDedupAux_nodup :
    ∀ (l seen : List String), (firstDedupAux seen l).Nodup := by
  intro l
  induction l with
  | nil => intro seen; simp [firstDedupAux]
  | cons y ys ih =>
    intro seen
    by_cases hy : y ∈ seen
    · rw [firstDedupAux, if_pos hy]
      exact ih seen
    · rw [firstDedupAux, if_neg hy, List.nodup_cons]
      refine ⟨fun c => ?_, ih _⟩
      exact ((mem_firstDedupAux _ _ _).mp c).1 (List.mem_cons_self _ _)

theorem uniqueCountries_nodup (rs : List Rec) : (uniqueCountries rs).Nodup :=
  List.Nodup.filter _ (firstDedupAux_nodup _ [])

theorem ne_unknown_of_mem_uc {rs : List Rec} {c : String}
    (h : c ∈ uniqueCountries rs) : c ≠ "Unknown" := by
  rw [uniqueCountries, List.mem_filter] at h
  simpa using h.2

theorem crossInner_eq {α β : Type} (s1 s2 : List α) (g : α → α → β) :
    (s1.flatMap fun x => s2.map fun y => g x y) =
      (pairProd s1 s2).map fun q => g q.1 q.2 := by
  have hfn : (fun a => (s2.map fun b => (a, b)).map fun q => g q.1 q.2) =
      fun x => s2.map fun y => g x y := by
    funext x
    simp [List.map_map, Function.comp]
  rw [pairProd, List.map_flatMap, hfn]

theorem mem_genTasks {rs : List Rec} {gc : Nat} {m : String} {v : Bool}
    {t : KTask} :
    t ∈ genTasks rs gc m v ↔
      (∃ p ∈ pairsOf (uniqueCountries rs), ∃ x ∈ seqsOf rs p.1,
        ∃ y ∈ seqsOf rs p.2, t = ⟨x, y, p.1, p.2, gc, m, v⟩) ∨
      (∃ c ∈ uniqueCountries rs, ∃ p ∈ pairsOf (seqsOf rs c),
        t = ⟨p.1, p.2, c, c, gc, m, v⟩) := by
  rw [genTasks, List.mem_append]
  constructor
  · rintro (h | h)
    · rcases List.mem_flatMap.mp h with ⟨p, hp, hin⟩
      rcases List.mem_flatMap.mp hin with ⟨x, hx, hin2⟩
      rcases List.mem_map.mp hin2 with ⟨y, hy, rfl⟩
      exact Or.inl ⟨p, hp, x, hx, y, hy, rfl⟩
    · rcases List.mem_flatMap.mp h with ⟨c, hc, hin⟩
      rcases List.mem_map.mp hin with ⟨p, hp, rfl⟩
      exact Or.inr ⟨c, hc, p, hp, rfl⟩
  · rintro (⟨p, hp, x, hx, y, hy, rfl⟩ | ⟨c, hc, p, hp, rfl⟩)
    · exact Or.inl (List.mem_flatMap.mpr ⟨p, hp,
        List.mem_flatMap.mpr ⟨x, hx, List.mem_map.mpr ⟨y, hy, rfl⟩⟩⟩)
    · exact Or.inr (List.mem_flatMap.mpr ⟨c, hc, List.mem_map.mpr ⟨p, hp, rfl⟩⟩)

theorem genTasks_countP_cross (rs : List Rec) (gc : Nat) (m : String)
    (v : Bool) {c1 c2 a b : String}
    (h1 : c1 ∈ uniqueCountries rs) (h2 : c2 ∈ uniqueCountries rs)
    (h12 : c1 ≠ c2) (hca : countEq a (seqsOf rs c1) = 1)
    (hcb : countEq b (seqsOf rs c2) = 1) :
    (genTasks rs gc m v).countP (fun t => isCrossTask c1 c2 a b t) = 1 := by
  rw [genTasks, List.countP_append]
  have hwithin : (((uniqueCountries rs).flatMap fun c =>
      (pairsOf (seqsOf rs c)).map fun p =>
        (⟨p.1, p.2, c, c, gc, m, v⟩ : KTask)).countP
          fun t => isCrossTask c1 c2 a b t) = 0 := by
    rw [List.countP_eq_zero]
    intro t ht
    rcases List.mem_flatMap.mp ht with ⟨c, _, hin⟩
    rcases List.mem_map.mp hin with ⟨p, _, rfl⟩
    simp only [decide_eq_true_eq]
    rintro (⟨e1, e2, _⟩ | ⟨e1, e2, _⟩)
    · exact h12 (e1.symm.trans e2)
    · exact h12 (e2.symm.trans e1)
  rw [hwithin, Nat.add_zero, countP_flatMap]
  have hmap : ((pairsOf (uniqueCountries rs)).map fun p =>
      (((seqsOf rs p.1).flatMap fun x => (seqsOf rs p.2).map fun y =>
        (⟨x, y, p.1, p.2, gc, m, v⟩ : KTask)).countP
          fun t => isCrossTask c1 c2 a b t)) =
      (pairsOf (uniqueCountries rs)).map fun p =>
        if (p.1 = c1 ∧ p.2 = c2) ∨ (p.1 = c2 ∧ p.2 = c1) then 1 else 0 := by
    refine List.map_congr_left ?_
    intro p _
    rw [crossInner_eq, List.countP_map]
    by_cases hp1 : p.1 = c1 ∧ p.2 = c2
    · obtain ⟨e1, e2⟩ := hp1
      have hfn : ((fun t => decide (isCrossTask c1 c2 a b t)) ∘
          fun (q : String × String) =>
            (⟨q.1, q.2, p.1, p.2, gc, m, v⟩ : KTask)) =
          fun q => decide (q.1 = a ∧ q.2 = b) := by
        funext q
        simp [isCrossTask, e1, e2, h12]
      rw [hfn, pairProd_countP, e1, e2, hca, hcb]
      simp [e1, e2]
    · by_cases hp2 : p.1 = c2 ∧ p.2 = c1
      · obtain ⟨e1, e2⟩ := hp2
        have h21 : ¬ c2 = c1 := fun c => h12 c.symm
        have hfn : ((fun t => decide (isCrossTask c1 c2 a b t)) ∘
            fun (q : String × String) =>
              (⟨q.1, q.2, p.1, p.2, gc, m, v⟩ : KTask)) =
            fun q => decide (q.1 = b ∧ q.2 = a) := by
          funext q
          simp [isCrossTask, e1, e2, h21]
        rw [hfn, pairProd_countP, e1, e2, hca, hcb]
        simp [e1, e2, h21]
      · have hfn : ((fun t => decide (isCrossTask c1 c2 a b t)) ∘
            fun (q : String × String) =>
              (⟨q.1, q.2, p.1, p.2, gc, m, v⟩ : KTask)) =
            fun _ => false := by
          funext q
          simp only [Function.comp_apply, decide_eq_false_iff_not]
          rintro (⟨e1, e2, _⟩ | ⟨e1, e2, _⟩)
          · exact hp1 ⟨e1, e2⟩
          · exact hp2 ⟨e1, e2⟩
        rw [hfn]
        have h0 : List.countP (fun (_ : String × String) => false)
            (pairProd (seqsOf rs p.1) (seqsOf rs p.2)) = 0 := by simp
        rw [h0]
        have : ¬ ((p.1 = c1 ∧ p.2 = c2) ∨ (p.1 = c2 ∧ p.2 = c1)) := by
          rintro (h | h)
          · exact hp1 h
          · exact hp2 h
        simp [this]
  rw [hmap, sum_map_ite]
  exact pairsOf_countP_orient (α := String) (uniqueCountries_nodup rs) h1 h2 h12

theorem genTasks_countP_within (rs : List Rec) (gc : Nat) (m : String)
    (v : Bool) {c a b : String} (hc : c ∈ uniqueCountries rs)
    (hnd : (seqsOf rs c).Nodup) (ha : a ∈ seqsOf rs c) (hb : b ∈ seqsOf rs c)
    (hab : a ≠ b) :
    (genTasks rs gc m v).countP (fun t => isWithinTask c a b t) = 1 := by
  rw [genTasks, List.countP_append]
  have hcross : (((pairsOf (uniqueCountries rs)).flatMap fun p =>
      (seqsOf rs p.1).flatMap fun x => (seqsOf rs p.2).map fun y =>
        (⟨x, y, p.1, p.2, gc, m, v⟩ : KTask)).countP
          fun t => isWithinTask c a b t) = 0 := by
    rw [List.countP_eq_zero]
    intro t ht
    rcases List.mem_flatMap.mp ht with ⟨p, hp, hin⟩
    rcases List.mem_flatMap.mp hin with ⟨x, _, hin2⟩
    rcases List.mem_map.mp hin2 with ⟨y, _, rfl⟩
    simp only [decide_eq_true_eq]
    rintro ⟨e1, e2, _⟩
    exact pairsOf_ne (uniqueCountries_nodup rs) p hp (e1.trans e2.symm)
  rw [hcross, Nat.zero_add, countP_flatMap]
  have hmap : ((uniqueCountries rs).map fun c' =>
      (((pairsOf (seqsOf rs c')).map fun p =>
        (⟨p.1, p.2, c', c', gc, m, v⟩ : KTask)).countP
          fun t => isWithinTask c a b t)) =
      (uniqueCountries rs).map fun c' => if c' = c then 1 else 0 := by
    refine List.map_congr_left ?_
    intro c' _
    rw [List.countP_map]
    by_cases hc' : c' = c
    · subst hc'
      have hfn : ((fun t => decide (isWithinTask c' a b t)) ∘
          fun (p : String × String) =>
            (⟨p.1, p.2, c', c', gc, m, v⟩ : KTask)) =
          fun p => decide ((p.1 = a ∧ p.2 = b) ∨ (p.1 = b ∧ p.2 = a)) := by
        funext p
        simp [isWithinTask]
      rw [hfn, pairsOf_countP_orient hnd ha hb hab]
      simp
    · have hfn : ((fun t => decide (isWithinTask c a b t)) ∘
          fun (p : String × String) =>
            (⟨p.1, p.2, c', c', gc, m, v⟩ : KTask)) =
          fun _ => false := by
        funext p
        simp only [Function.comp_apply, decide_eq_false_iff_not]
        rintro ⟨e1, _, _⟩
        exact hc' e1
      rw [hfn]
      have h0 : List.countP (fun (_ : String × String) => false)
          (pairsOf (seqsOf rs c')) = 0 := by simp
      rw [h0]
      simp [hc']
  rw [hmap, sum_map_ite]
  exact countEq_eq_one (uniqueCountries_nodup rs) hc

theorem genTasks_countP_self (rs : List Rec) (gc : Nat) (m : String)
    (v : Bool) {c : String} (hnd : (seqsOf rs c).Nodup) :
    (genTasks rs gc m v).countP
      (fun t => t.gA = c ∧ t.gB = c ∧ t.a = t.b) = 0 := by
  rw [List.countP_eq_zero]
  intro t ht
  simp only [decide_eq_true_eq]
  rintro ⟨e1, e2, e3⟩
  rcases mem_genTasks.mp ht with ⟨p, hp, x, _, y, _, rfl⟩ | ⟨c', _, p, hp, rfl⟩
  · exact pairsOf_ne (uniqueCountries_nodup rs) p hp (e1.trans e2.symm)
  · have hcc : c' = c := e1
    subst hcc
    exact pairsOf_ne hnd p hp e3

theorem genTasks_fields (rs : List Rec) (gc : Nat) (m : String) (v : Bool) :
    ∀ t ∈ genTasks rs gc m v,
      t.gA ≠ "Unknown" ∧ t.gB ≠ "Unknown" ∧
      t.a ∈ seqsOf rs t.gA ∧ t.b ∈ seqsOf rs t.gB := by
  intro t ht
  rcases mem_genTasks.mp ht with ⟨p, hp, x, hx, y, hy, rfl⟩ | ⟨c, hc, p, hp, rfl⟩
  · rcases mem_pairsOf _ p hp with ⟨h1, h2⟩
    exact ⟨ne_unknown_of_mem_uc h1, ne_unknown_of_mem_uc h2, hx, hy⟩
  · rcases mem_pairsOf _ p hp with ⟨h1, h2⟩
    exact ⟨ne_unknown_of_mem_uc hc, ne_unknown_of_mem_uc hc, h1, h2⟩

/-! ## Helper lemmas: row emission shapes -/

theorem entryRows_of_ne (conv : String → Option String) (gene : Option String)
    (start stop : Option Nat) (e : AggKey × Vals) (h : e.1.1 ≠ e.1.2) :
    entryRows conv gene start stop e =
      [baseRow conv gene start stop e,
        swapRow (baseRow conv gene start stop e)] := by
  rw [entryRows, if_pos h]

theorem entryRows_of_eq (conv : String → Option String) (gene : Option String)
    (start stop : Option Nat) (e : AggKey × Vals) (h : e.1.1 = e.1.2) :
    entryRows conv gene start stop e = [baseRow conv gene start stop e] := by
  rw [entryRows, if_neg (fun c => c h)]

/-! ## Helper lemmas: sequence filtering -/

theorem frameTrim_length (l : List Char) :
    (frameTrim l).length = l.length - l.length % 3 := by
  rw [frameTrim, List.length_take]
  omega

theorem frameTrim_mod (l : List Char) : (frameTrim l).length % 3 = 0 := by
  rw [frameTrim_length]
  omega

theorem trimN_length_le (l : List Char) : (trimN l).length ≤ l.length := by
  rw [trimN]
  calc ((l.dropWhile fun c => c = 'N').reverse.dropWhile
        fun c => c = 'N').reverse.length
      = ((l.dropWhile fun c => c = 'N').reverse.dropWhile
        fun c => c = 'N').length := List.length_reverse _
    _ ≤ (l.dropWhile fun c => c = 'N').reverse.length :=
        (List.dropWhile_sublist _).length_le
    _ = (l.dropWhile fun c => c = 'N').length := List.length_reverse _
    _ ≤ l.length := (List.dropWhile_sublist _).length_le

theorem idxStart_of_not_truthy {start : Option Nat} (h : ¬ truthy start) :
    idxStart start = 0 := by
  cases start with
  | none => rfl
  | some k =>
    cases k with
    | zero => rfl
    | succ j => simp [truthy] at h

theorem sliceStage_clamp (seq : List Char) (start : Option Nat) {b : Nat}
    (hb : seq.length ≤ b) :
    sliceStage seq start (some b) = sliceStage seq start none := by
  have hs0 : (trimN (seq.map Char.toUpper)).length ≤ b :=
    le_trans (trimN_length_le _) (by simpa using hb)
  cases b with
  | zero =>
    have hnil : seq = [] := List.eq_nil_of_length_eq_zero (Nat.le_zero.mp hb)
    subst hnil
    rfl
  | succ n =>
    rw [sliceStage, sliceStage]
    by_cases hst : truthy start
    · rw [if_pos (Or.inl hst), if_pos (Or.inl hst)]
      rw [List.take_of_length_le, List.take_of_length_le]
      · rw [List.length_drop]
        have h2 : idxStop none (trimN (seq.map Char.toUpper)).length =
            (trimN (seq.map Char.toUpper)).length := rfl
        rw [h2]
      · rw [List.length_drop]
        have h1 : idxStop (some (n + 1))
            (trimN (seq.map Char.toUpper)).length = n + 1 := rfl
        rw [h1]
        omega
    · have htr : truthy (some (n + 1)) := rfl
      rw [if_pos (Or.inr htr), if_neg ?_]
      · rw [idxStart_of_not_truthy hst, List.drop_zero, Nat.sub_zero]
        exact List.take_of_length_le hs0
      · rintro (c | c)
        · exact hst c
        · exact absurd c (by decide)

/-! ## Helper lemmas: country normalization fixed points -/

theorem norm_of_canonicalFix (L : String → Option String)
    (F : String → String × Nat) (n : String) (h : canonicalFix L F n) :
    normalize_country L F (some n) = n := by
  obtain ⟨h1, h2, h3, h4, h5⟩ := h
  have hcond : ¬ (n = "" ∨ lowerStr n = "na") := by
    rintro (c | c)
    · exact h1 c
    · exact h2 c
  show (if n = "" ∨ lowerStr n = "na" then "Unknown" else _) = n
  rw [if_neg hcond]
  simp only [h3, h4, Option.map_none]
  rcases h5 with hL | ⟨hL, hF1, hF2⟩
  · rw [hL]
    rfl
  · rw [hL, if_pos hF2, hF1]
    rfl

/-! ## Helper lemmas: fatal conditions of the pipeline -/

theorem keysOf_nil_of_all_none :
    ∀ (l : List (Option PairResult)), (∀ x ∈ l, x = none) → keysOf l = [] := by
  intro l
  induction l with
  | nil => intro _; rfl
  | cons o rest ih =>
    intro h
    have ho : o = none := h o (List.mem_cons_self _ _)
    subst ho
    show keysNotIn [] rest = []
    exact ih fun x hx => h x (List.mem_cons_of_mem _ hx)

theorem buildAgg_eq_nil_of_all_none {l : List (Option PairResult)}
    (h : ∀ x ∈ l, x = none) : buildAgg l = [] := by
  rw [buildAgg_eq, keysOf_nil_of_all_none l h]
  rfl

theorem buildAgg_ne_nil_of_mem {l : List (Option PairResult)} {r : PairResult}
    (h : some r ∈ l) : buildAgg l ≠ [] := by
  rw [buildAgg_eq]
  have hkey : (r.gA, r.gB) ∈ keysOf l := by
    rw [mem_keysOf]
    have hv : (r.ka, r.ks) ∈ valsFor l (r.gA, r.gB) := by
      refine List.mem_filterMap.mpr ⟨some r, h, ?_⟩
      simp
    exact List.ne_nil_of_mem hv
  exact List.ne_nil_of_mem (List.mem_map_of_mem _ hkey)

theorem buildAgg_skip_none (l1 l2 : List (Option PairResult)) :
    buildAgg (l1 ++ none :: l2) = buildAgg (l1 ++ l2) := by
  simp only [buildAgg, List.foldl_append, List.foldl_cons]
  rfl

/-! ## Claim theorems -/

/-- C4: the claim asserts that parsing the header `"KCH_strain|2015"`
returns raw token `"KCH"`, canonical country `"Malaysia"` via the fixed
region table, and year 2015.  On the code, the year is 2015 but the raw
token is the whole segment `"KCH_strain"`, and `split_camel_case` turns
the stripped token `"KCH"` into `"K C H"` before the region-table check,
so the table entry `KCH → Malaysia` can never fire: the canonical country
is whatever catalog/fuzzy lookup of `"K C H"` yields (and `"Unknown"`
whenever the exact lookup fails and the fuzzy score is below 80). -/
theorem claim_C4 :
    ∀ (L : String → Option String) (F : String → String × Nat),
      (parse_header L F "KCH_strain|2015").1 = "KCH_strain" ∧
      (parse_header L F "KCH_strain|2015").2.2 = some 2015 ∧
      (parse_header L F "KCH_strain|2015").1 ≠ "KCH" ∧
      splitCamelCase "KCH" = "K C H" ∧
      (REGION_TO_COUNTRY.find?
        fun e => e.1 = upperStr (splitCamelCase "KCH")) = none ∧
      (parse_header L F "KCH_strain|2015").2.1 =
        normalize_country L F (some "KCH_strain") ∧
      (L "K C H" = none → (F "K C H").2 < 80 →
        (parse_header L F "KCH_strain|2015").2.1 = "Unknown") := by
  intro L F
  have hraw : (parse_header L F "KCH_strain|2015").1 = "KCH_strain" := rfl
  refine ⟨hraw, rfl, ?_, by decide, by decide, rfl, ?_⟩
  · rw [hraw]
    decide
  intro hL hF
  show normalize_country L F (some "KCH_strain") = "Unknown"
  have h1 : normalize_country L F (some "KCH_strain") =
      match L "K C H" with
      | some name => name
      | none =>
        if 80 ≤ (F "K C H").2 then (F "K C H").1 else "Unknown" := rfl
  rw [h1, hL, if_neg (Nat.not_le.mpr hF)]

theorem claim_C4_witness :
    (extLookup0 "K C H" = none ∧ (extFuzz0 "K C H").2 < 80) ∧
    (parse_header extLookup0 extFuzz0 "KCH_strain|2015").2.1 = "Unknown" :=
  ⟨⟨rfl, by decide⟩,
    (claim_C4 extLookup0 extFuzz0).2.2.2.2.2.2 rfl (by decide)⟩

/-- C5: `process_sequence` either rejects or returns a sequence of length
at least 90 and divisible by 3; any input whose post-pipeline length is
below 90 is rejected, and a 93-base all-N sequence is rejected because
N-trimming empties it. -/
theorem claim_C5 :
    (∀ (seq : List Char) (start stop : Option Nat) (out : List Char),
      process_sequence seq start stop = some out →
      90 ≤ out.length ∧ out.length % 3 = 0) ∧
    (∀ (seq : List Char) (start stop : Option Nat),
      (prepCore seq start stop).length < 90 →
      process_sequence seq start stop = none) ∧
    process_sequence (List.replicate 93 'N') none none = none := by
  refine ⟨?_, ?_, by decide⟩
  · intro seq start stop out h
    rw [process_sequence] at h
    by_cases hlen : 90 ≤ (prepCore seq start stop).length
    · rw [if_pos hlen] at h
      obtain rfl : prepCore seq start stop = out := Option.some.inj h
      exact ⟨hlen, frameTrim_mod _⟩
    · rw [if_neg hlen] at h
      exact absurd h (by simp)
  · intro seq start stop h
    rw [process_sequence, if_neg (Nat.not_le.mpr h)]

theorem claim_C5_witness :
    process_sequence (List.replicate 93 'A') none none =
      some (List.replicate 93 'A') ∧
    90 ≤ (List.replicate 93 'A').length ∧
    (List.replicate 93 'A').length % 3 = 0 :=
  ⟨by decide, claim_C5.1 (List.replicate 93 'A') none none
    (List.replicate 93 'A') (by decide)⟩

/-- C6: country canonicalization is idempotent on tokens that resolve to
a canonical catalog name — whenever `normalize_country` produces a name
`n` that the (abstracted) catalog resolution maps back to itself
(`canonicalFix`), re-normalizing `n` returns `n` again. -/
theorem claim_C6 :
    ∀ (L : String → Option String) (F : String → String × Nat)
      (x : Option String),
      canonicalFix L F (normalize_country L F x) →
      normalize_country L F (some (normalize_country L F x)) =
        normalize_country L F x :=
  fun L F x h => norm_of_canonicalFix L F _ h

theorem claim_C6_witness :
    canonicalFix extLookupMY extFuzz0
      (normalize_country extLookupMY extFuzz0 (some "malaysia")) ∧
    normalize_country extLookupMY extFuzz0
      (some (normalize_country extLookupMY extFuzz0 (some "malaysia"))) =
      normalize_country extLookupMY extFuzz0 (some "malaysia") :=
  ⟨by decide, claim_C6 extLookupMY extFuzz0 (some "malaysia") (by decide)⟩

/-- C8: `normalize_country` maps the empty token, a missing token and the
token `"NA"` (case-insensitively) to `"Unknown"`; `country_to_continent`
maps `"Unknown"` to `"Unknown"` and swallows every lookup failure of the
external conversion chain, returning `"Unknown"` instead. -/
theorem claim_C8 :
    ∀ (L : String → Option String) (F : String → String × Nat)
      (conv : String → Option String),
      normalize_country L F (some "") = "Unknown" ∧
      normalize_country L F none = "Unknown" ∧
      (∀ s, lowerStr s = "na" → normalize_country L F (some s) = "Unknown") ∧
      country_to_continent conv "Unknown" = "Unknown" ∧
      (∀ c, conv c = none → country_to_continent conv c = "Unknown") := by
  intro L F conv
  refine ⟨rfl, rfl, ?_, rfl, ?_⟩
  · intro s hs
    show (if s = "" ∨ lowerStr s = "na" then "Unknown" else _) = "Unknown"
    rw [if_pos (Or.inr hs)]
  · intro c hc
    rw [country_to_continent]
    by_cases h : c = "Unknown"
    · rw [if_pos h]
    · rw [if_neg h, hc]

theorem claim_C8_witness :
    (lowerStr "NA" = "na" ∧ conv0 "France" = none) ∧
    normalize_country extLookup0 extFuzz0 (some "NA") = "Unknown" ∧
    country_to_continent conv0 "France" = "Unknown" :=
  ⟨⟨by decide, rfl⟩,
    (claim_C8 extLookup0 extFuzz0 conv0).2.2.1 "NA" (by decide),
    (claim_C8 extLookup0 extFuzz0 conv0).2.2.2.2 "France" rfl⟩

/-- C10: the sequence filter is total over non-negative coordinates: a
stop bound at or beyond the input length is equivalent to no stop bound
(clamping), and a `0` on either coordinate behaves exactly like an absent
coordinate, rather than as a one-based position. -/
theorem claim_C10 :
    (∀ (seq : List Char) (start : Option Nat) (b : Nat), seq.length ≤ b →
      process_sequence seq start (some b) =
        process_sequence seq start none) ∧
    (∀ (seq : List Char) (stop : Option Nat),
      process_sequence seq (some 0) stop = process_sequence seq none stop) ∧
    (∀ (seq : List Char) (start : Option Nat),
      process_sequence seq start (some 0) =
        process_sequence seq start none) := by
  refine ⟨?_, ?_, ?_⟩
  · intro seq start b hb
    simp only [process_sequence, prepCore, sliceStage_clamp seq start hb]
  · intro seq stop
    rfl
  · intro seq start
    rfl

theorem claim_C10_witness :
    (List.replicate 6 'A').length ≤ 100 ∧
    process_sequence (List.replicate 6 'A') none (some 100) =
      process_sequence (List.replicate 6 'A') none none :=
  ⟨by decide, claim_C10.1 (List.replicate 6 'A') none 100 (by decide)⟩

/-- C7: with no surviving records the run terminates with the fatal
"no usable sequences" error and produces no rows; if every task's oracle
call fails the run terminates with a fatal error as well; conversely a
single successful task suffices for the run to produce output rows, and a
failed task is simply skipped by the aggregation (removing its `None`
entry leaves the aggregate unchanged). -/
theorem claim_C7 :
    ∀ (conv : String → Option String) (gene : Option String)
      (start stop : Option Nat) (gc : Nat) (m : String) (v : Bool)
      (oracle : KTask → Option (ℚ × ℚ)) (records : List Rec),
      (records = [] → runPipeline conv gene start stop gc m v oracle records =
        Except.error "No usable sequences after filtering") ∧
      ((∀ t ∈ genTasks records gc m v, oracle t = none) →
        ∃ msg, runPipeline conv gene start stop gc m v oracle records =
          Except.error msg) ∧
      (∀ t0 ∈ genTasks records gc m v, oracle t0 ≠ none →
        ∃ rows, runPipeline conv gene start stop gc m v oracle records =
          Except.ok rows) ∧
      (∀ l1 l2 : List (Option PairResult),
        buildAgg (l1 ++ none :: l2) = buildAgg (l1 ++ l2)) := by
  intro conv gene start stop gc m v oracle records
  refine ⟨?_, ?_, ?_, buildAgg_skip_none⟩
  · intro h
    subst h
    rfl
  · intro h
    by_cases hrec : records = []
    · subst hrec
      exact ⟨_, rfl⟩
    · have hall : ∀ x ∈ (genTasks records gc m v).map fun t =>
          (oracle t).map fun q => PairResult.mk t.gA t.gB q.1 q.2, x = none := by
        intro x hx
        rcases List.mem_map.mp hx with ⟨t, ht, rfl⟩
        rw [h t ht]
        rfl
      refine ⟨"KaKs_Calculator produced zero usable results", ?_⟩
      rw [runPipeline, if_neg hrec, if_pos (buildAgg_eq_nil_of_all_none hall)]
  · intro t0 ht0 hor
    have hrec : records ≠ [] := by
      intro c
      subst c
      have hnil : genTasks ([] : List Rec) gc m v = [] := rfl
      rw [hnil] at ht0
      exact absurd ht0 (List.not_mem_nil t0)
    obtain ⟨q, hq⟩ := Option.ne_none_iff_exists'.mp hor
    have hmem : some (PairResult.mk t0.gA t0.gB q.1 q.2) ∈
        (genTasks records gc m v).map fun t =>
          (oracle t).map fun q => PairResult.mk t.gA t.gB q.1 q.2 := by
      refine List.mem_map.mpr ⟨t0, ht0, ?_⟩
      rw [hq]
      rfl
    refine ⟨mkRows conv gene start stop (buildAgg
      ((genTasks records gc m v).map fun t =>
        (oracle t).map fun q => PairResult.mk t.gA t.gB q.1 q.2)), ?_⟩
    rw [runPipeline, if_neg hrec, if_neg (buildAgg_ne_nil_of_mem hmem)]

theorem claim_C7_witness :
    ((⟨"s1", "s2", "A", "B", 1, "YN", false⟩ : KTask) ∈
        genTasks records1 1 "YN" false ∧
      oracle1 ⟨"s1", "s2", "A", "B", 1, "YN", false⟩ ≠ none) ∧
    (∃ rows, runPipeline conv0 none none none 1 "YN" false oracle1 records1 =
      Except.ok rows) ∧
    (∃ msg, runPipeline conv0 none none none 1 "YN" false oracle0 records1 =
      Except.error msg) ∧
    runPipeline conv0 none none none 1 "YN" false oracle0 [] =
      Except.error "No usable sequences after filtering" :=
  ⟨⟨by decide, by decide⟩,
    (claim_C7 conv0 none none none 1 "YN" false oracle1 records1).2.2.1
      ⟨"s1", "s2", "A", "B", 1, "YN", false⟩ (by decide) (by decide),
    (claim_C7 conv0 none none none 1 "YN" false oracle0 records1).2.1
      (fun t _ => rfl),
    (claim_C7 conv0 none none none 1 "YN" false oracle0 []).1 rfl⟩

/-- C2: the aggregate row of every non-empty group carries the arithmetic
means of the group's Ka and Ks values, the group's size, and the ratio
policy value (`inf` exactly when the mean Ks is 0, the quotient of the
means otherwise); the output contains that row.  On the spec's concrete
example the two rows produced are `(A, B, 3/10, 1/10, 3, 2)` and its
mirror. -/
theorem claim_C2 :
    (∀ (conv : String → Option String) (gene : Option String)
      (s st : Option Nat) (results : List (Option PairResult)) (A B : String),
      valsFor results (A, B) ≠ [] →
      baseRow conv gene s st ((A, B), valsFor results (A, B)) ∈
        mkRows conv gene s st (buildAgg results)) ∧
    (∀ e : AggKey × Vals, ∀ conv gene s st,
      (baseRow conv gene s st e).meanKa = meanKaOf e.2 ∧
      (baseRow conv gene s st e).meanKs = meanKsOf e.2 ∧
      (baseRow conv gene s st e).pairs = e.2.length ∧
      (baseRow conv gene s st e).ratio = ratioOf e.2) ∧
    (∀ vs : Vals, meanKsOf vs = 0 → ratioOf vs = Val.inf) ∧
    (∀ vs : Vals, meanKsOf vs ≠ 0 →
      ratioOf vs = Val.val (meanKaOf vs / meanKsOf vs)) ∧
    (∀ conv : String → Option String,
      mkRows conv none none none (buildAgg results2) =
        [⟨"A", "B", country_to_continent conv "A",
          country_to_continent conv "B", 3/10, 1/10, Val.val 3, 2,
          none, none, none⟩,
         ⟨"B", "A", country_to_continent conv "B",
          country_to_continent conv "A", 3/10, 1/10, Val.val 3, 2,
          none, none, none⟩]) := by
  refine ⟨?_, ?_, ?_, ?_, ?_⟩
  · intro conv gene s st results A B h
    rw [mkRows_buildAgg]
    refine List.mem_flatMap.mpr ⟨(A, B), (mem_keysOf _ _).mpr h, ?_⟩
    rw [entryRows]
    exact List.mem_cons_self _ _
  · intro e conv gene s st
    exact ⟨rfl, rfl, rfl, rfl⟩
  · intro vs h
    rw [ratioOf, if_pos h]
  · intro vs h
    rw [ratioOf, if_neg h]
  · intro conv
    have hagg : buildAgg results2 =
        [(("A", "B"), [((1:ℚ)/5, (1:ℚ)/10), (2/5, 1/10)])] := rfl
    have hka : meanKaOf [((1:ℚ)/5, (1:ℚ)/10), (2/5, 1/10)] = 3/10 := by
      rw [meanKaOf]
      norm_num
    have hks : meanKsOf [((1:ℚ)/5, (1:ℚ)/10), (2/5, 1/10)] = 1/10 := by
      rw [meanKsOf]
      norm_num
    have hr : ratioOf [((1:ℚ)/5, (1:ℚ)/10), (2/5, 1/10)] = Val.val 3 := by
      rw [ratioOf, hka, hks, if_neg (by norm_num)]
      norm_num
    rw [hagg, mkRows, List.flatMap_cons, List.flatMap_nil, List.append_nil,
      entryRows_of_ne conv none none none _ (by decide)]
    simp only [baseRow, swapRow, hka, hks, hr]
    rfl

theorem claim_C2_witness :
    valsFor results2 ("A", "B") ≠ [] ∧
    baseRow conv0 none none none (("A", "B"), valsFor results2 ("A", "B")) ∈
      mkRows conv0 none none none (buildAgg results2) :=
  ⟨by decide, claim_C2.1 conv0 none none none results2 "A" "B" (by decide)⟩

/-- C3: every aggregate entry with distinct group labels emits exactly two
rows — the computed row and its mirror, whose numeric fields (means,
ratio, pair count) and passthrough fields are identical and whose labels
and continents are swapped — while an entry with equal labels emits
exactly one row; consequently the whole output table is invariant, as a
multiset, under swapping the group labels together with the continents. -/
theorem claim_C3 :
    ∀ (conv : String → Option String) (gene : Option String)
      (s st : Option Nat) (results : List (Option PairResult)),
      (∀ e ∈ buildAgg results,
        (e.1.1 ≠ e.1.2 → entryRows conv gene s st e =
          [baseRow conv gene s st e, swapRow (baseRow conv gene s st e)]) ∧
        (e.1.1 = e.1.2 → entryRows conv gene s st e =
          [baseRow conv gene s st e])) ∧
      (∀ r : Row, (swapRow r).gA = r.gB ∧ (swapRow r).gB = r.gA ∧
        (swapRow r).contA = r.contB ∧ (swapRow r).contB = r.contA ∧
        (swapRow r).meanKa = r.meanKa ∧ (swapRow r).meanKs = r.meanKs ∧
        (swapRow r).ratio = r.ratio ∧ (swapRow r).pairs = r.pairs ∧
        (swapRow r).gene = r.gene ∧ (swapRow r).start = r.start ∧
        (swapRow r).stop = r.stop) ∧
      ((mkRows conv gene s st (buildAgg results)).map swapRow).Perm
        (mkRows conv gene s st (buildAgg results)) := by
  intro conv gene s st results
  refine ⟨?_, ?_, ?_⟩
  · intro e _
    exact ⟨entryRows_of_ne conv gene s st e, entryRows_of_eq conv gene s st e⟩
  · intro r
    exact ⟨rfl, rfl, rfl, rfl, rfl, rfl, rfl, rfl, rfl, rfl, rfl⟩
  · rw [mkRows, List.map_flatMap]
    exact flatMap_perm_of_forall fun e _ =>
      swapRow_entryRows_perm conv gene s st e

theorem claim_C3_witness :
    ((("A", "B"), ([((1:ℚ), (2:ℚ))] : Vals)) ∈ buildAgg results3 ∧
      ("A" : String) ≠ "B") ∧
    entryRows conv0 none none none (("A", "B"), ([((1:ℚ), (2:ℚ))] : Vals)) =
      [baseRow conv0 none none none (("A", "B"), [((1:ℚ), (2:ℚ))]),
        swapRow (baseRow conv0 none none none (("A", "B"), [((1:ℚ), (2:ℚ))]))] :=
  ⟨⟨by decide, by decide⟩,
    ((claim_C3 conv0 none none none results3).1
      (("A", "B"), [((1:ℚ), (2:ℚ))]) (by decide)).1 (by decide)⟩

/-- C9 (counterexample): aggregation is not literally order-independent —
permuting the results list permutes the first-arrival order of the group
keys and hence the row order of the output table, so the two tables are
not equal as lists. -/
theorem claim_C9_counterexample :
    resultsP.Perm resultsQ ∧
    mkRows conv0 none none none (buildAgg resultsP) ≠
      mkRows conv0 none none none (buildAgg resultsQ) := by
  constructor
  · decide
  · decide

/-- C9 (amended): aggregation is order-independent up to row order — for
every permutation of the results list the output table is a permutation
of the original one, each group's row carrying identical statistics,
because grouping is by the `(groupA, groupB)` label and the means are
insensitive to the order of each group's values. -/
theorem claim_C9 :
    ∀ (conv : String → Option String) (gene : Option String)
      (s st : Option Nat) {l l' : List (Option PairResult)},
      l.Perm l' →
      (mkRows conv gene s st (buildAgg l)).Perm
        (mkRows conv gene s st (buildAgg l')) := by
  intro conv gene s st l l' h
  rw [mkRows_buildAgg, mkRows_buildAgg]
  have hfun : (fun k => entryRows conv gene s st (k, valsFor l k)) =
      fun k => entryRows conv gene s st (k, valsFor l' k) := by
    funext k
    exact entryRows_congr conv gene s st k (valsFor_perm h k)
  rw [hfun]
  exact List.Perm.flatMap_right _ (keysOf_perm h)

theorem claim_C9_witness :
    resultsP.Perm resultsQ ∧
    (mkRows conv0 none none none (buildAgg resultsP)).Perm
      (mkRows conv0 none none none (buildAgg resultsQ)) :=
  ⟨by decide, claim_C9 conv0 none none none (by decide)⟩

/-- C1: every generated task pairs two retained sequences and never
involves the country `"Unknown"`; for distinct countries each
(sequence-of-C1, sequence-of-C2) pair yields exactly one task counting
both orientations; within one country each unordered pair of distinct
sequences yields exactly one task and no sequence is paired with itself;
and on countries with 2, 3 and 1 sequences the task list has
6+2+3 = 11 cross tasks and 1+3+0 = 4 within tasks, 15 in total, with the
`"Unknown"`-country sequence appearing in no task. -/
theorem claim_C1 :
    (∀ (rs : List Rec) (gc : Nat) (m : String) (v : Bool),
      ∀ t ∈ genTasks rs gc m v,
        t.gA ≠ "Unknown" ∧ t.gB ≠ "Unknown" ∧
        t.a ∈ seqsOf rs t.gA ∧ t.b ∈ seqsOf rs t.gB) ∧
    (∀ (rs : List Rec) (gc : Nat) (m : String) (v : Bool) (c1 c2 a b : String),
      c1 ∈ uniqueCountries rs → c2 ∈ uniqueCountries rs → c1 ≠ c2 →
      countEq a (seqsOf rs c1) = 1 → countEq b (seqsOf rs c2) = 1 →
      (genTasks rs gc m v).countP (fun t => isCrossTask c1 c2 a b t) = 1) ∧
    (∀ (rs : List Rec) (gc : Nat) (m : String) (v : Bool) (c a b : String),
      c ∈ uniqueCountries rs → (seqsOf rs c).Nodup →
      a ∈ seqsOf rs c → b ∈ seqsOf rs c → a ≠ b →
      (genTasks rs gc m v).countP (fun t => isWithinTask c a b t) = 1) ∧
    (∀ (rs : List Rec) (gc : Nat) (m : String) (v : Bool) (c : String),
      (seqsOf rs c).Nodup →
      (genTasks rs gc m v).countP
        (fun t => t.gA = c ∧ t.gB = c ∧ t.a = t.b) = 0) ∧
    ((genTasks exRecords 1 "YN" false).length = 15 ∧
      (genTasks exRecords 1 "YN" false).countP
        (fun t => t.gA = "A" ∧ t.gB = "B") = 6 ∧
      (genTasks exRecords 1 "YN" false).countP
        (fun t => t.gA = "A" ∧ t.gB = "C") = 2 ∧
      (genTasks exRecords 1 "YN" false).countP
        (fun t => t.gA = "B" ∧ t.gB = "C") = 3 ∧
      (genTasks exRecords 1 "YN" false).countP
        (fun t => t.gA = "A" ∧ t.gB = "A") = 1 ∧
      (genTasks exRecords 1 "YN" false).countP
        (fun t => t.gA = "B" ∧ t.gB = "B") = 3 ∧
      (genTasks exRecords 1 "YN" false).countP
        (fun t => t.gA = "C" ∧ t.gB = "C") = 0 ∧
      ∀ t ∈ genTasks exRecords 1 "YN" false, t.a ≠ "u1" ∧ t.b ≠ "u1") := by
  refine ⟨genTasks_fields, ?_, ?_, ?_, ?_⟩
  · intro rs gc m v c1 c2 a b h1 h2 h12 hca hcb
    exact genTasks_countP_cross rs gc m v h1 h2 h12 hca hcb
  · intro rs gc m v c a b hc hnd ha hb hab
    exact genTasks_countP_within rs gc m v hc hnd ha hb hab
  · intro rs gc m v c hnd
    exact genTasks_countP_self rs gc m v hnd
  · refine ⟨by decide, by decide, by decide, by decide, by decide, by decide,
      by decide, by decide⟩

theorem claim_C1_witness :
    ("A" ∈ uniqueCountries exRecords ∧ "B" ∈ uniqueCountries exRecords ∧
      ("A" : String) ≠ "B" ∧ countEq "a1" (seqsOf exRecords "A") = 1 ∧
      countEq "b1" (seqsOf exRecords "B") = 1 ∧
      (seqsOf exRecords "B").Nodup ∧ "b1" ∈ seqsOf exRecords "B" ∧
      "b2" ∈ seqsOf exRecords "B" ∧ ("b1" : String) ≠ "b2") ∧
    (genTasks exRecords 1 "YN" false).countP
      (fun t => isCrossTask "A" "B" "a1" "b1" t) = 1 ∧
    (genTasks exRecords 1 "YN" false).countP
      (fun t => isWithinTask "B" "b1" "b2" t) = 1 :=
  ⟨⟨by decide, by decide, by decide, by decide, by decide, by decide,
      by decide, by decide, by decide⟩,
    claim_C1.2.1 exRecords 1 "YN" false "A" "B" "a1" "b1" (by decide)
      (by decide) (by decide) (by decide) (by decide),
    claim_C1.2.2.1 exRecords 1 "YN" false "B" "b1" "b2" (by decide)
      (by decide) (by decide) (by decide) (by decide)⟩
